import Mathlib

/-!
Verification of the libpub/golib queues package (OrderedQueue, FIFOQueue)
and the httpclient retry scheduler built on top of it.

Shallow embedding conventions:
  * a Go slice of elements is a Lean `List IElement`;
  * the mutexes only serialize operations, so each operation is embedded as
    a pure function from the pre-state to the post-state;
  * Go `int`/`int64` values that are provably non-negative in context are
    embedded as `Nat`; values that can be negative (cut indices, scan
    cursors, identifiers returned as `-1`) are embedded as `Int`;
  * a Go statement that always panics on a given path is embedded by
    returning `none` on that path.
-/

/-- Ordering mode of an ordered queue (Go: `type OrderingMode int` with
constants `OrderingAsc = 0`, `OrderingDesc = 1`). -/
inductive OrderingMode where
  | OrderingAsc : OrderingMode
  | OrderingDesc : OrderingMode
deriving DecidableEq

open OrderingMode

/-- Element contract: the fields of the `IElement` interface that the queue
code reads (`GetID` and `OrderingValue`).  `DebugString`/`GetName` are never
used by the verified operations and are omitted. -/
structure IElement where
  id : String
  ov : Int
deriving DecidableEq

/-- Placeholder element used for total list indexing; every indexed access
in the embedding is proved to be in range, so this value is never the
result of a faithful lookup. -/
def dummyElement : IElement := ⟨"", 0⟩

/-- Ordering value stored at position `j` of a queue slice. -/
def ovAt (q : List IElement) (j : Nat) : Int := (q.getD j dummyElement).ov

/-- The comparison performed in the binary-search loop body: `left` is true
when `item` must be placed strictly to the left of the probed element
(Go: `item.OrderingValue() < (*queue)[idx].OrderingValue()` for ascending,
`>` for descending). -/
def goLeft : OrderingMode → Int → Int → Bool
  | OrderingAsc, a, b => decide (a < b)
  | OrderingDesc, a, b => decide (b < a)

/-- The `for idx < l` loop of `findOrderedQueueInsertingIndex`.  At every
loop head the Go variable `originIdx` equals `idx` (it is initialised to
`idx` and re-assigned to the new `idx` whenever the loop continues), so it
is not carried separately: the `idx == originIdx` break test compares the
newly computed index with the current one.  The loop provably terminates;
`fuel` is a bound on the remaining iterations, always instantiated large
enough (see `findLoop_post`). -/
def findLoop (q : List IElement) (l : Nat) (item : IElement) (o : OrderingMode) :
    Nat → Nat → Nat → Nat → Nat
  | 0, idx, _, _ => idx
  | fuel + 1, idx, minIdx, maxIdx =>
    if idx < l then
      if goLeft o item.ov (ovAt q idx) then
        if idx ≤ 0 then idx
        else
          let maxIdx2 := idx - 1
          let idx2 := (minIdx + maxIdx2 + 1) / 2
          if idx2 = idx then idx2
          else findLoop q l item o fuel idx2 minIdx maxIdx2
      else
        let minIdx2 := idx + 1
        let idx2 := (minIdx2 + maxIdx + 1) / 2
        if idx2 = idx then idx2
        else findLoop q l item o fuel idx2 minIdx2 maxIdx
    else idx

/-- Go `findOrderedQueueInsertingIndex(queue, l, item, ordering)`: binary
search for the insertion index.  A nil or empty queue returns 0; otherwise
the loop starts from `idx = l/2`, `minIdx = 0`, `maxIdx = l-1`.  The fuel
`2*l + 4` strictly exceeds the worst-case iteration count. -/
def findOrderedQueueInsertingIndex (q : List IElement) (l : Nat) (item : IElement)
    (o : OrderingMode) : Nat :=
  if l ≤ 0 then 0
  else findLoop q l item o (2 * l + 4) (l / 2) 0 (l - 1)

/-- Go `pushItemToOrderedQueue(queue, l, item, ordering)`.  The Go code
copies the tail before the in-place appends, so the resulting value is
prefix ++ item ++ tail. -/
def pushItemToOrderedQueue (q : List IElement) (l : Nat) (item : IElement)
    (o : OrderingMode) : List IElement :=
  if l ≤ 0 then [item]
  else
    let idx := findOrderedQueueInsertingIndex q l item o
    if idx ≥ l then q ++ [item]
    else q.take idx ++ item :: q.drop idx

/-- Go `OrderedQueue`: the slice plus the fixed ordering mode (the mutex
only serializes operations and has no value-level content). -/
structure OrderedQueue where
  queue : List IElement
  ordering : OrderingMode
deriving DecidableEq

/-- Go `NewAscOrderingQueue()`. -/
def NewAscOrderingQueue : OrderedQueue := ⟨[], OrderingAsc⟩

/-- Go `NewDescOrderingQueue()`. -/
def NewDescOrderingQueue : OrderedQueue := ⟨[], OrderingDesc⟩

/-- Go `(*OrderedQueue).Add`: reads `ql = len(q.queue)` and replaces the
slice by `pushItemToOrderedQueue(&q.queue, ql, item, q.ordering)`. -/
def OrderedQueue.Add (q : OrderedQueue) (item : IElement) : OrderedQueue :=
  { q with queue := pushItemToOrderedQueue q.queue q.queue.length item q.ordering }

/-- Go `(*OrderedQueue).Push`: delegates to `Add`, returns true. -/
def OrderedQueue.Push (q : OrderedQueue) (item : IElement) : Bool × OrderedQueue :=
  (true, q.Add item)

/-- Go `(*OrderedQueue).Pop`: removes and returns the first element;
`(nil, false)` on an empty queue. -/
def OrderedQueue.Pop (q : OrderedQueue) : Option IElement × OrderedQueue :=
  match q.queue with
  | [] => (none, q)
  | x :: rest => (some x, { q with queue := rest })

/-- Go `(*OrderedQueue).First`: returns the head without removing it. -/
def OrderedQueue.First (q : OrderedQueue) : Option IElement :=
  match q.queue with
  | [] => none
  | x :: _ => some x

/-- Go `(*OrderedQueue).PopMany(maxResults)`: result is ((items, count),
new queue state); `items = none` models the Go nil slice result. -/
def OrderedQueue.PopMany (q : OrderedQueue) (maxResults : Int) :
    (Option (List IElement) × Int) × OrderedQueue :=
  let maxLen : Int := q.queue.length
  if 0 ≥ maxLen ∨ 0 ≥ maxResults then ((none, 0), q)
  else
    let maxLen2 := if maxLen > maxResults then maxResults else maxLen
    ((some (q.queue.take maxLen2.toNat), maxLen2),
      { q with queue := q.queue.drop maxLen2.toNat })

/-- Go `(*OrderedQueue).Elements`: defensive copy of the slice. -/
def OrderedQueue.Elements (q : OrderedQueue) : List IElement := q.queue

/-- Iteration core of the forward scan, structurally recursive on the
number of remaining loop iterations. -/
def scanFwdAux (q : List IElement) (tid : String) : Nat → Nat → Option Nat
  | _, 0 => none
  | cursor, rem + 1 =>
    if (q.getD cursor dummyElement).id = tid then some cursor
    else scanFwdAux q tid (cursor + 1) rem

/-- Forward scan of `findElementIndex`: Go
`for cursor < max { if match return cursor; cursor++ }`, which runs at
most `mx - cursor` iterations. -/
def scanFwd (q : List IElement) (tid : String) (cursor mx : Nat) : Option Nat :=
  scanFwdAux q tid cursor (mx - cursor)

/-- Iteration core of the backward scan, structurally recursive on the
number of remaining loop iterations. -/
def scanBwdAux (q : List IElement) (tid : String) : Int → Nat → Option Int
  | _, 0 => none
  | cursor, rem + 1 =>
    if (q.getD cursor.toNat dummyElement).id = tid then some cursor
    else scanBwdAux q tid (cursor - 1) rem

/-- Backward scan of `findElementIndex`: Go
`cursor = idx-1; for cursor > min { if match return cursor; cursor-- }`,
which runs at most `cursor - min` iterations.  The cursor may start at
`-1`, hence `Int`. -/
def scanBwd (q : List IElement) (tid : String) (cursor lo : Int) : Option Int :=
  scanBwdAux q tid cursor (cursor - lo).toNat

/-- Go `(*OrderedQueue).findElementIndex(item)`: binary-search estimate,
then a forward scan over `[idx, min(idx+2, l))` and a backward scan over
`(max(idx-2, -1), idx-1]`; returns `-1` when no identity match is found. -/
def OrderedQueue.findElementIndex (q : OrderedQueue) (item : IElement) : Int :=
  let l := q.queue.length
  if l ≤ 0 then -1
  else
    let idx := findOrderedQueueInsertingIndex q.queue l item q.ordering
    let mx : Nat := if idx + 2 > l then l else idx + 2
    let mn : Int := if (-1 : Int) > (idx : Int) - 2 then -1 else (idx : Int) - 2
    match scanFwd q.queue item.id idx mx with
    | some c => (c : Int)
    | none =>
      match scanBwd q.queue item.id ((idx : Int) - 1) mn with
      | some c => c
      | none => -1

/-- Go `(*OrderedQueue).Remove(item)`: locate by `findElementIndex`; on a
hit, splice the found position out of the slice. -/
def OrderedQueue.Remove (q : OrderedQueue) (item : IElement) : Bool × OrderedQueue :=
  let idx := q.findElementIndex item
  if 0 > idx then (false, q)
  else (true, { q with queue := q.queue.take idx.toNat ++ q.queue.drop (idx.toNat + 1) })

/-- Go `(*OrderedQueue).GetOne(item)`: returns `(item, false)` when
`findElementIndex` misses and `(item, true)` when it hits — in both cases
the first component is the probe argument itself. -/
def OrderedQueue.GetOne (q : OrderedQueue) (item : IElement) : IElement × Bool :=
  let idx := q.findElementIndex item
  if 0 > idx then (item, false)
  else (item, true)

/-- Go `(*OrderedQueue).GetElement(ID)`: linear scan by identity. -/
def OrderedQueue.GetElement (q : OrderedQueue) (ID : String) : Option IElement :=
  q.queue.find? (fun e => e.id = ID)

/-- Go `(*OrderedQueue).CutBefore(idx)`: result is `some (cuts, rest)`, or
`none` when the Go code panics.  For `idx > len` the code reaches
`q.queue[:idx]` / `q.queue[idx:]`; the second slice expression has its low
bound above the slice length, so that path always panics. -/
def OrderedQueue.CutBefore (q : OrderedQueue) (idx : Int) :
    Option (List IElement × OrderedQueue) :=
  if 0 > idx then some ([], q)
  else if (q.queue.length : Int) ≥ idx then some (q.queue, { q with queue := [] })
  else none

/-- Go `(*OrderedQueue).CutAfter(idx)`: result is `some (cuts, rest)`, or
`none` when the Go code panics.  For `idx > len` the code reaches
`q.queue[idx+1:]` whose low bound exceeds the slice length, so that path
always panics. -/
def OrderedQueue.CutAfter (q : OrderedQueue) (idx : Int) :
    Option (List IElement × OrderedQueue) :=
  if 0 > idx then some (q.queue, { q with queue := [] })
  else if (q.queue.length : Int) ≥ idx then some ([], q)
  else none

/-- Go `(*OrderedQueue).GetSize`. -/
def OrderedQueue.GetSize (q : OrderedQueue) : Nat := q.queue.length

/-- Go `FIFOQueue`: plain slice behind a mutex. -/
structure FIFOQueue where
  queue : List IElement
deriving DecidableEq

/-- Go `NewFIFOQueue()`. -/
def NewFIFOQueue : FIFOQueue := ⟨[]⟩

/-- Go `(*FIFOQueue).Push`: append. -/
def FIFOQueue.Push (q : FIFOQueue) (item : IElement) : Bool × FIFOQueue :=
  (true, ⟨q.queue ++ [item]⟩)

/-- Go `(*FIFOQueue).Pop`. -/
def FIFOQueue.Pop (q : FIFOQueue) : Option IElement × FIFOQueue :=
  match q.queue with
  | [] => (none, q)
  | x :: rest => (some x, ⟨rest⟩)

/-- Go `(*FIFOQueue).PopMany(maxResults)`: textually the same algorithm as
the ordered variant. -/
def FIFOQueue.PopMany (q : FIFOQueue) (maxResults : Int) :
    (Option (List IElement) × Int) × FIFOQueue :=
  let maxLen : Int := q.queue.length
  if 0 ≥ maxLen ∨ 0 ≥ maxResults then ((none, 0), q)
  else
    let maxLen2 := if maxLen > maxResults then maxResults else maxLen
    ((some (q.queue.take maxLen2.toNat), maxLen2), ⟨q.queue.drop maxLen2.toNat⟩)

/-- Go `(*FIFOQueue).CutBefore(idx)`: textually the same as the ordered
variant, including the always-panicking `idx > len` path. -/
def FIFOQueue.CutBefore (q : FIFOQueue) (idx : Int) :
    Option (List IElement × FIFOQueue) :=
  if 0 > idx then some ([], q)
  else if (q.queue.length : Int) ≥ idx then some (q.queue, ⟨[]⟩)
  else none

/-- Go `(*FIFOQueue).CutAfter(idx)`: textually the same as the ordered
variant. -/
def FIFOQueue.CutAfter (q : FIFOQueue) (idx : Int) :
    Option (List IElement × FIFOQueue) :=
  if 0 > idx then some (q.queue, ⟨[]⟩)
  else if (q.queue.length : Int) ≥ idx then some ([], q)
  else none

/-- Go constant `RetryDurationFactor = 5` (httpclient). -/
def RetryDurationFactor : Int := 5

/-- Go `formatRetryDuration(retries)`: the backoff law — the base factor
for the first three attempts, linear afterwards. -/
def formatRetryDuration (retries : Int) : Int :=
  if retries < 3 then RetryDurationFactor
  else RetryDurationFactor * retries

/-- The fields of Go `httpClientOption` read by the retry path (headers,
TLS, proxy and timeout settings are forwarded opaquely and carry no
retry-relevant behavior). -/
structure HttpClientOption where
  retries : Int
  shouldRetry : Int
deriving DecidableEq

/-- Go `requestEntity`: the retry entry stored in the pending queue. -/
structure RequestEntity where
  method : String
  url : String
  options : HttpClientOption
  triggerTimestamp : Int
deriving DecidableEq

/-- The `IElement` view of a `requestEntity`: `GetID()` returns the url and
`OrderingValue()` returns the trigger timestamp. -/
def RequestEntity.toElement (r : RequestEntity) : IElement :=
  ⟨r.url, r.triggerTimestamp⟩

/-- Go `afterQueryFailed` restricted to its retry-scheduling effect: when
the caller configured a retry budget and it is not exhausted, build the
retry entry with `triggerTimestamp = now.Unix() + formatRetryDuration(...)`
and push it into the shared ascending ordered queue.  (The Go statement
`now.Add(retryDuration)` discards its result, so it has no value-level
effect.)  Returns the new queue plus the entity pushed, if any. -/
def afterQueryFailed (method url : String) (opts : HttpClientOption) (nowUnix : Int)
    (pendingQueue : OrderedQueue) : OrderedQueue × Option RequestEntity :=
  if opts.shouldRetry > 0 then
    if opts.retries ≥ opts.shouldRetry then (pendingQueue, none)
    else
      let re : RequestEntity := ⟨method, url, opts, nowUnix + formatRetryDuration opts.retries⟩
      ((pendingQueue.Push re.toElement).2, some re)
  else (pendingQueue, none)

/-- Outcome of invoking the retry action (Go: the `HTTPQuery` call made by
`checkRetryEntity`); the scheduler is oblivious to everything except
whether the invocation returned normally or panicked. -/
inductive DispatchOutcome where
  | completed : DispatchOutcome
  | panicked : DispatchOutcome
deriving DecidableEq

/-- Go `checkRetryEntity(item, tim)`: a due entry is dispatched
synchronously and `true` is returned (keep draining); an entry that is not
yet due is pushed back and `false` is returned (stop draining).  The
function body contains no recover, so a panic raised by the retry action
unwinds straight through it: this is modelled by `Except.error ()`.  The
second component of a normal result lists the entities pushed back into
the pending queue. -/
def checkRetryEntity (re : RequestEntity) (tim : Int)
    (action : RequestEntity → DispatchOutcome) :
    Except Unit (Bool × Option RequestEntity) :=
  if re.triggerTimestamp ≤ tim then
    match action re with
    | DispatchOutcome.panicked => Except.error ()
    | DispatchOutcome.completed => Except.ok (true, none)
  else Except.ok (false, some re)

/-- Ordered re-insertion of a pushed-back entity, modelling
`_pendingRequestsQueue.Push(re)` at the `List RequestEntity` level (the
pending queue is ascending by trigger timestamp). -/
def insertByTrigger (re : RequestEntity) (pending : List RequestEntity) : List RequestEntity :=
  match pending with
  | [] => [re]
  | x :: rest =>
    if re.triggerTimestamp < x.triggerTimestamp then re :: x :: rest
    else x :: insertByTrigger re rest

/-- The inner drain loop of one tick of Go `pendingRequestsTimer`:
`for ok { item, ok = Pop(); if ok { ok = checkRetryEntity(item, now) } }`.
The pending queue is projected to its list of entities in queue order.
There is no recover between the retry action and the goroutine top, so a
panic (`Except.error`) propagates out of the whole loop. -/
def tickDrainLoop (now : Int) (action : RequestEntity → DispatchOutcome) :
    Nat → List RequestEntity → Except Unit (List RequestEntity)
  | 0, pending => Except.ok pending
  | _ + 1, [] => Except.ok []
  | fuel + 1, re :: rest =>
    match checkRetryEntity re now action with
    | Except.error () => Except.error ()
    | Except.ok (true, _) => tickDrainLoop now action fuel rest
    | Except.ok (false, some re2) => Except.ok (insertByTrigger re2 rest)
    | Except.ok (false, none) => Except.ok rest

/-- Sortedness of a queue slice in the given mode, phrased positionally:
no later element would be placed strictly to the left of an earlier one.
For the ascending mode this is exactly "non-decreasing in ordering value",
for the descending mode "non-increasing". -/
def SortedByMode (o : OrderingMode) (q : List IElement) : Prop :=
  ∀ i j, i < j → j < q.length → goLeft o (ovAt q j) (ovAt q i) = false

/-- Postcondition of the insertion-index search: the returned index is the
upper bound of the run of elements that `item` does not go before — every
earlier element compares not-left, and the element at the index (if any)
compares left. -/
def InsPost (q : List IElement) (item : IElement) (o : OrderingMode) (r : Nat) : Prop :=
  r ≤ q.length ∧ (∀ j, j < r → goLeft o item.ov (ovAt q j) = false) ∧
    (r < q.length → goLeft o item.ov (ovAt q r) = true)

/-- The set of positions the identity scans of `findElementIndex` actually
visit: one position on each side of the binary-search estimate `idx`,
clamped to the queue bounds. -/
def removeWindow (l idx j : Nat) : Prop := j < l ∧ idx ≤ j + 1 ∧ j ≤ idx + 1

/-- Repeatedly `Pop` the ordered queue, collecting the returned elements
in order, for at most `fuel` iterations (draining the queue whenever
`fuel` is at least its size). -/
def drainAll : Nat → OrderedQueue → List IElement
  | 0, _ => []
  | fuel + 1, q =>
    match q.Pop with
    | (none, _) => []
    | (some x, q2) => x :: drainAll fuel q2

/-- Demo element with identity "a" and ordering value 1. -/
def elemA : IElement := ⟨"a", 1⟩

/-- Demo element with identity "b" and ordering value 1 (same ordering
value as `elemA`). -/
def elemB : IElement := ⟨"b", 1⟩

/-- Demo element with identity "c" and ordering value 3. -/
def elemC : IElement := ⟨"c", 3⟩

/-- Claim C2 (code bug): `CutBefore` does not remove the elements at
positions below the index.  On the queue `[a, c]`, `CutBefore 1` must cut
`[a]` and keep `[c]`, but the code — whose condition `len(q.queue) >= idx`
is reversed — removes and returns the whole queue; and `CutBefore 2` on
the one-element queue `[a]` reaches the slice expressions with an index
above the length, which panic (`none`), so `CutBefore` is not panic free.
The FIFO variant behaves identically. -/
theorem claim_C2_cutBefore_eval :
    (OrderedQueue.mk [elemA, elemC] OrderingAsc).CutBefore 1 =
      some ([elemA, elemC], ⟨[], OrderingAsc⟩) ∧
    (OrderedQueue.mk [elemA, elemC] OrderingAsc).CutBefore 0 =
      some ([elemA, elemC], ⟨[], OrderingAsc⟩) ∧
    (OrderedQueue.mk [elemA] OrderingAsc).CutBefore 2 = none ∧
    (FIFOQueue.mk [elemA, elemC]).CutBefore 1 = some ([elemA, elemC], ⟨[]⟩) := by
  refine ⟨rfl, rfl, rfl, rfl⟩

/-- Claim C3 (code bug): `CutAfter` does not remove the elements at
positions above the index.  On the queue `[a, c]`, `CutAfter 0` must cut
`[c]` and keep `[a]`, but the code returns an empty cut and leaves the
queue unchanged for every index between 0 and the length; a negative index
— which per the claim must produce an empty cut with no mutation — cuts
and returns the entire queue; and `CutAfter 2` on the one-element queue
`[a]` reaches a panicking slice expression (`none`).  The FIFO variant
behaves identically. -/
theorem claim_C3_cutAfter_eval :
    (OrderedQueue.mk [elemA, elemC] OrderingAsc).CutAfter 0 =
      some ([], ⟨[elemA, elemC], OrderingAsc⟩) ∧
    (OrderedQueue.mk [elemA, elemC] OrderingAsc).CutAfter (-1) =
      some ([elemA, elemC], ⟨[], OrderingAsc⟩) ∧
    (OrderedQueue.mk [elemA] OrderingAsc).CutAfter 2 = none ∧
    (FIFOQueue.mk [elemA, elemC]).CutAfter 0 = some ([], ⟨[elemA, elemC]⟩) := by
  refine ⟨rfl, rfl, rfl, rfl⟩

/-- Claim C5: on a dispatch failure with a positive retry budget and
remaining attempts, the entry pushed into the shared ascending queue has
`triggerTimestamp = now + delay`, where the delay is the base factor for
`attemptCount < 3` and base factor times attempt count afterwards. -/
theorem claim_C5_retry_delay (method url : String) (opts : HttpClientOption)
    (nowUnix : Int) (q : OrderedQueue)
    (hbudget : opts.shouldRetry > 0) (hleft : opts.retries < opts.shouldRetry) :
    ∃ re : RequestEntity,
      afterQueryFailed method url opts nowUnix q = (q.Add re.toElement, some re) ∧
      re.triggerTimestamp = nowUnix + formatRetryDuration opts.retries ∧
      (opts.retries < 3 → formatRetryDuration opts.retries = RetryDurationFactor) ∧
      (3 ≤ opts.retries →
        formatRetryDuration opts.retries = RetryDurationFactor * opts.retries) := by
  refine ⟨⟨method, url, opts, nowUnix + formatRetryDuration opts.retries⟩, ?_, rfl, ?_, ?_⟩
  · unfold afterQueryFailed OrderedQueue.Push
    rw [if_pos hbudget, if_neg (by omega)]
  · intro h
    unfold formatRetryDuration
    rw [if_pos h]
  · intro h
    unfold formatRetryDuration
    rw [if_neg (by omega)]

/-- Witness for claim C5 at a concrete input: budget 2, no attempt yet. -/
theorem claim_C5_retry_delay_witness :
    ∃ re : RequestEntity,
      afterQueryFailed "GET" "u" ⟨0, 2⟩ 100 NewAscOrderingQueue =
        (NewAscOrderingQueue.Add re.toElement, some re) ∧
      re.triggerTimestamp = 100 + formatRetryDuration 0 ∧
      ((0 : Int) < 3 → formatRetryDuration 0 = RetryDurationFactor) ∧
      ((3 : Int) ≤ 0 → formatRetryDuration 0 = RetryDurationFactor * 0) :=
  claim_C5_retry_delay "GET" "u" ⟨0, 2⟩ 100 NewAscOrderingQueue (by decide) (by decide)

/-- Claim C6 (counterexample): the claimed backoff schedule gives
`4 * factor` at attempt count 3, but the code computes
`RetryDurationFactor * 3 = 3 * factor` there (and `4 * factor`, not
`5 * factor`, at attempt count 4). -/
theorem claim_C6_counterexample :
    formatRetryDuration 3 = 3 * RetryDurationFactor ∧
    ¬ formatRetryDuration 3 = 4 * RetryDurationFactor ∧
    ¬ formatRetryDuration 4 = 5 * RetryDurationFactor := by
  refine ⟨by decide, by decide, by decide⟩

/-- Claim C6 (amended): for `attemptCount = 0, 1, 2, 3, 4` the computed
delay is `factor, factor, factor, 3*factor, 4*factor`. -/
theorem claim_C6_amended :
    formatRetryDuration 0 = RetryDurationFactor ∧
    formatRetryDuration 1 = RetryDurationFactor ∧
    formatRetryDuration 2 = RetryDurationFactor ∧
    formatRetryDuration 3 = 3 * RetryDurationFactor ∧
    formatRetryDuration 4 = 4 * RetryDurationFactor := by
  refine ⟨by decide, by decide, by decide, by decide, by decide⟩

/-- Claim C7 (counterexample): with one due entry whose retry action
panics, the consumer tick propagates the panic (`Except.error`) instead of
catching it and continuing. -/
theorem claim_C7_counterexample :
    tickDrainLoop 100 (fun _ => DispatchOutcome.panicked) 3
      [⟨"GET", "u", ⟨0, 3⟩, 50⟩] = Except.error () := rfl

/-- Claim C7 (amended): a panic raised by the retry action of a due entry
is not caught anywhere — `checkRetryEntity` contains no recover, so the
panic unwinds out of it and out of the ticking consumer loop, terminating
the consumer. -/
theorem claim_C7_amended (re : RequestEntity) (now : Int)
    (action : RequestEntity → DispatchOutcome) (rest : List RequestEntity) (fuel : Nat)
    (hdue : re.triggerTimestamp ≤ now)
    (hpanic : action re = DispatchOutcome.panicked) :
    checkRetryEntity re now action = Except.error () ∧
    tickDrainLoop now action (fuel + 1) (re :: rest) = Except.error () := by
  have h1 : checkRetryEntity re now action = Except.error () := by
    unfold checkRetryEntity
    rw [if_pos hdue, hpanic]
  refine ⟨h1, ?_⟩
  unfold tickDrainLoop
  rw [h1]

/-- Witness for claim C7 at a concrete input. -/
theorem claim_C7_amended_witness :
    checkRetryEntity ⟨"GET", "u", ⟨0, 3⟩, 50⟩ 100 (fun _ => DispatchOutcome.panicked) =
      Except.error () ∧
    tickDrainLoop 100 (fun _ => DispatchOutcome.panicked) (2 + 1)
      [⟨"GET", "u", ⟨0, 3⟩, 50⟩] = Except.error () :=
  claim_C7_amended ⟨"GET", "u", ⟨0, 3⟩, 50⟩ 100 (fun _ => DispatchOutcome.panicked)
    [] 2 (by decide) rfl

/-- Claim C10: `GetOne` searches only the bounded window around the
binary-search estimate, so it can miss an element that is physically
present (here: two elements share ordering value 1, the estimate is 2 and
the element "a" at position 0 is outside the scanned window, yet
`GetElement` proves it present); and it always returns the probe argument
itself as first component — in the last conjunct the stored element
`⟨"a", 3⟩` differs from the returned `⟨"a", 2⟩`. -/
theorem claim_C10_getone_window :
    (∀ (q : OrderedQueue) (item : IElement), (q.GetOne item).1 = item) ∧
    ((OrderedQueue.mk [elemA, elemB] OrderingAsc).GetOne elemA).2 = false ∧
    (OrderedQueue.mk [elemA, elemB] OrderingAsc).GetElement elemA.id = some elemA ∧
    (OrderedQueue.mk [⟨"a", 3⟩] OrderingAsc).GetOne ⟨"a", 2⟩ = (⟨"a", 2⟩, true) ∧
    (((OrderedQueue.mk [⟨"a", 3⟩] OrderingAsc).GetOne ⟨"a", 2⟩).1.ov = 2 ∧
      ([(⟨"a", 3⟩ : IElement)].getD 0 dummyElement).ov = 3) := by
  refine ⟨?_, by decide, by decide, by decide, by decide, by decide⟩
  intro q item
  unfold OrderedQueue.GetOne
  by_cases h : (0 : Int) > q.findElementIndex item <;> simp [h]

/-- Claim C8: `PopMany` on either queue returns `(nil, 0)` without mutation
when `maxResults ≤ 0` or the queue is empty, and otherwise removes and
returns the first `min maxResults size` elements in queue order together
with that count (the clamp to the size is what makes an over-large
`maxResults` safe). -/
theorem claim_C8_popmany (q : OrderedQueue) (fq : FIFOQueue) (m : Int) :
    ((m ≤ 0 ∨ q.queue = []) → q.PopMany m = ((none, 0), q)) ∧
    (0 < m → q.queue ≠ [] →
      q.PopMany m = ((some (q.queue.take (min m (q.queue.length : Int)).toNat),
                      min m (q.queue.length : Int)),
                     { q with queue := q.queue.drop (min m (q.queue.length : Int)).toNat })) ∧
    ((m ≤ 0 ∨ fq.queue = []) → fq.PopMany m = ((none, 0), fq)) ∧
    (0 < m → fq.queue ≠ [] →
      fq.PopMany m = ((some (fq.queue.take (min m (fq.queue.length : Int)).toNat),
                       min m (fq.queue.length : Int)),
                      ⟨fq.queue.drop (min m (fq.queue.length : Int)).toNat⟩)) := by
  refine ⟨?_, ?_, ?_, ?_⟩
  · intro h
    have hc : 0 ≥ (q.queue.length : Int) ∨ 0 ≥ m := by
      rcases h with h | h
      · exact Or.inr (by omega)
      · exact Or.inl (by simp [h])
    simp only [OrderedQueue.PopMany]
    rw [if_pos hc]
  · intro hm hne
    have hlen : 0 < q.queue.length := List.length_pos.mpr hne
    have hc : ¬ (0 ≥ (q.queue.length : Int) ∨ 0 ≥ m) := by omega
    simp only [OrderedQueue.PopMany]
    rw [if_neg hc]
    by_cases hgt : (q.queue.length : Int) > m
    · rw [if_pos hgt]
      have hmin : min m (q.queue.length : Int) = m := min_eq_left (by omega)
      rw [hmin]
    · rw [if_neg hgt]
      have hmin : min m (q.queue.length : Int) = (q.queue.length : Int) :=
        min_eq_right (by omega)
      rw [hmin]
  · intro h
    have hc : 0 ≥ (fq.queue.length : Int) ∨ 0 ≥ m := by
      rcases h with h | h
      · exact Or.inr (by omega)
      · exact Or.inl (by simp [h])
    simp only [FIFOQueue.PopMany]
    rw [if_pos hc]
  · intro hm hne
    have hlen : 0 < fq.queue.length := List.length_pos.mpr hne
    have hc : ¬ (0 ≥ (fq.queue.length : Int) ∨ 0 ≥ m) := by omega
    simp only [FIFOQueue.PopMany]
    rw [if_neg hc]
    by_cases hgt : (fq.queue.length : Int) > m
    · rw [if_pos hgt]
      have hmin : min m (fq.queue.length : Int) = m := min_eq_left (by omega)
      rw [hmin]
    · rw [if_neg hgt]
      have hmin : min m (fq.queue.length : Int) = (fq.queue.length : Int) :=
        min_eq_right (by omega)
      rw [hmin]

/-- Witness for claim C8 at concrete inputs: a three-element queue popped
with budget 2 (clamped take) and with budget 0 (no-op). -/
theorem claim_C8_popmany_witness :
    (((2 : Int) ≤ 0 ∨ (OrderedQueue.mk [elemA, elemB, elemC] OrderingAsc).queue = []) →
      (OrderedQueue.mk [elemA, elemB, elemC] OrderingAsc).PopMany 2 =
        ((none, 0), OrderedQueue.mk [elemA, elemB, elemC] OrderingAsc)) ∧
    ((0 : Int) < 2 → (OrderedQueue.mk [elemA, elemB, elemC] OrderingAsc).queue ≠ [] →
      (OrderedQueue.mk [elemA, elemB, elemC] OrderingAsc).PopMany 2 =
        ((some ((OrderedQueue.mk [elemA, elemB, elemC] OrderingAsc).queue.take
                  (min 2 ((OrderedQueue.mk [elemA, elemB, elemC] OrderingAsc).queue.length : Int)).toNat),
          min 2 ((OrderedQueue.mk [elemA, elemB, elemC] OrderingAsc).queue.length : Int)),
         { OrderedQueue.mk [elemA, elemB, elemC] OrderingAsc with
             queue := (OrderedQueue.mk [elemA, elemB, elemC] OrderingAsc).queue.drop
               (min 2 ((OrderedQueue.mk [elemA, elemB, elemC] OrderingAsc).queue.length : Int)).toNat })) ∧
    (((2 : Int) ≤ 0 ∨ (FIFOQueue.mk []).queue = []) →
      (FIFOQueue.mk []).PopMany 2 = ((none, 0), FIFOQueue.mk [])) ∧
    ((0 : Int) < 2 → (FIFOQueue.mk []).queue ≠ [] →
      (FIFOQueue.mk []).PopMany 2 =
        ((some ((FIFOQueue.mk []).queue.take
                  (min 2 ((FIFOQueue.mk []).queue.length : Int)).toNat),
          min 2 ((FIFOQueue.mk []).queue.length : Int)),
         ⟨(FIFOQueue.mk []).queue.drop (min 2 ((FIFOQueue.mk []).queue.length : Int)).toNat⟩)) :=
  claim_C8_popmany (OrderedQueue.mk [elemA, elemB, elemC] OrderingAsc) (FIFOQueue.mk []) 2

/-- The left-of comparison never relates a value to itself. -/
theorem goLeft_irrefl (o : OrderingMode) (a : Int) : goLeft o a a = false := by
  cases o <;> simp [goLeft]

/-- The left-of comparison is asymmetric. -/
theorem goLeft_asymm (o : OrderingMode) {a b : Int} (h : goLeft o a b = true) :
    goLeft o b a = false := by
  cases o <;> simp [goLeft] at h ⊢ <;> omega

/-- Going left of `b` propagates across an element `c` that does not go
left of `b` from the other side. -/
theorem goLeft_trans_left (o : OrderingMode) {a b c : Int}
    (h1 : goLeft o a b = true) (h2 : goLeft o c b = false) : goLeft o a c = true := by
  cases o <;> simp [goLeft] at h1 h2 ⊢ <;> omega

/-- Not going left is transitive. -/
theorem goLeft_trans_right (o : OrderingMode) {a b c : Int}
    (h1 : goLeft o a b = false) (h2 : goLeft o b c = false) : goLeft o a c = false := by
  cases o <;> simp [goLeft] at h1 h2 ⊢ <;> omega

/-- If `a` goes left of `b` and `c` does not, then `c` does not go left of
`a`. -/
theorem goLeft_trans_asymm (o : OrderingMode) {a b c : Int}
    (h1 : goLeft o a b = true) (h2 : goLeft o c b = false) : goLeft o c a = false := by
  cases o <;> simp [goLeft] at h1 h2 ⊢ <;> omega

/-- A value that goes left of another is distinct from it. -/
theorem goLeft_ne (o : OrderingMode) {a b : Int} (h : goLeft o a b = true) : a ≠ b := by
  cases o <;> simp [goLeft] at h ⊢ <;> omega

/-- The search loop never returns an index above `l`. -/
theorem findLoop_le (q : List IElement) (l : Nat) (item : IElement) (o : OrderingMode) :
    ∀ fuel idx minIdx maxIdx, idx ≤ l → minIdx ≤ l → maxIdx < l →
      findLoop q l item o fuel idx minIdx maxIdx ≤ l := by
  intro fuel
  induction fuel with
  | zero =>
    intro idx minIdx maxIdx h1 _ _
    simpa [findLoop] using h1
  | succ f ih =>
    intro idx minIdx maxIdx h1 h2 h3
    simp only [findLoop]
    split_ifs with hil hleft hz hb1 hb2
    · omega
    · omega
    · exact ih _ _ _ (by omega) h2 (by omega)
    · omega
    · exact ih _ _ _ (by omega) (by omega) h3
    · omega

/-- The insertion-index search never returns an index above `l`. -/
theorem findInsertingIndex_le (q : List IElement) (l : Nat) (item : IElement)
    (o : OrderingMode) : findOrderedQueueInsertingIndex q l item o ≤ l := by
  unfold findOrderedQueueInsertingIndex
  split_ifs with hl
  · omega
  · exact findLoop_le q l item o _ _ _ _ (by omega) (by omega) (by omega)

/-- Main loop invariant proof for the insertion-index search: on a sorted
queue, the loop returns an upper-bound insertion index.  The invariants
carried are: `minIdx ≤ idx ≤ maxIdx + 1`; `maxIdx` in range; when the
index sits one past `maxIdx` the lower bound has caught up with it;
everything below `minIdx` compares not-left; everything above `maxIdx`
compares left; and the fuel dominates the size of the remaining range. -/
theorem findLoop_post (q : List IElement) (item : IElement) (o : OrderingMode)
    (hs : SortedByMode o q) :
    ∀ fuel idx minIdx maxIdx,
      minIdx ≤ idx → idx ≤ maxIdx + 1 → maxIdx < q.length →
      (idx = maxIdx + 1 → minIdx = idx) →
      (∀ j, j < minIdx → goLeft o item.ov (ovAt q j) = false) →
      (∀ j, maxIdx < j → j < q.length → goLeft o item.ov (ovAt q j) = true) →
      maxIdx + 2 - minIdx ≤ fuel →
      InsPost q item o (findLoop q q.length item o fuel idx minIdx maxIdx) := by
  intro fuel
  induction fuel with
  | zero =>
    intro idx minIdx maxIdx hm1 hm2 _ _ _ _ hf
    omega
  | succ f ih =>
    intro idx minIdx maxIdx hm1 hm2 hm3 hm8 h4 h5 hf
    simp only [findLoop]
    split_ifs with hil hleft hz hb1 hb2
    · -- break: left at index 0
      exact ⟨by omega, fun j hj => absurd hj (by omega), fun _ => hleft⟩
    · -- break: the re-computed index equals the current one after a left step
      refine ⟨by omega, ?_, ?_⟩
      · intro j hj
        exact h4 j (by omega)
      · intro h
        rw [hb1]
        exact hleft
    · -- recurse after a left step
      have hidxle : idx ≤ maxIdx := by
        by_contra hc
        have heq : idx = maxIdx + 1 := by omega
        have := hm8 heq
        omega
      apply ih
      · omega
      · omega
      · omega
      · intro h
        omega
      · exact h4
      · intro j hj hjl
        rcases Nat.eq_or_lt_of_le (show idx ≤ j by omega) with heq | hlt
        · rw [← heq]
          exact hleft
        · by_cases hmax : j ≤ maxIdx
          · exact goLeft_trans_left o hleft (hs idx j hlt hjl)
          · exact h5 j (by omega) hjl
      · omega
    · -- impossible break: the re-computed index cannot equal the current
      -- one after a not-left step
      exfalso
      have hnl : goLeft o item.ov (ovAt q idx) = false := by
        revert hleft
        cases goLeft o item.ov (ovAt q idx) <;> simp
      have hidxle : idx ≤ maxIdx := by
        by_contra hc
        have := h5 idx (by omega) hil
        rw [this] at hnl
        exact Bool.noConfusion hnl
      omega
    · -- recurse after a not-left step
      have hnl : goLeft o item.ov (ovAt q idx) = false := by
        revert hleft
        cases goLeft o item.ov (ovAt q idx) <;> simp
      have hidxle : idx ≤ maxIdx := by
        by_contra hc
        have := h5 idx (by omega) hil
        rw [this] at hnl
        exact Bool.noConfusion hnl
      apply ih
      · omega
      · omega
      · exact hm3
      · intro h
        omega
      · intro j hj
        by_cases hjm : j < minIdx
        · exact h4 j hjm
        · rcases Nat.eq_or_lt_of_le (show j ≤ idx by omega) with heq | hlt
          · rw [heq]
            exact hnl
          · exact goLeft_trans_right o hnl (hs j idx hlt hil)
      · exact h5
      · omega
    · -- loop exit: the index reached the length
      have hidx : idx = q.length := by omega
      have hmin : minIdx = idx := hm8 (by omega)
      exact ⟨by omega, fun j hj => h4 j (by omega), fun h => absurd h (by omega)⟩

/-- On a sorted queue the insertion-index search returns an upper-bound
insertion index. -/
theorem findInsertingIndex_post (q : List IElement) (item : IElement) (o : OrderingMode)
    (hs : SortedByMode o q) :
    InsPost q item o (findOrderedQueueInsertingIndex q q.length item o) := by
  unfold findOrderedQueueInsertingIndex
  split_ifs with hl
  · have h0 : q.length = 0 := by omega
    exact ⟨by omega, fun j hj => absurd hj (by omega), fun h => absurd h (by omega)⟩
  · apply findLoop_post q item o hs
    · omega
    · omega
    · omega
    · intro h
      omega
    · intro j hj
      omega
    · intro j hj hjl
      omega
    · omega

/-- The insertion result is always prefix ++ item ++ suffix at the
computed index (also in the append-at-end and empty cases). -/
theorem push_eq_insertAt (q : List IElement) (item : IElement) (o : OrderingMode) :
    pushItemToOrderedQueue q q.length item o =
      q.take (findOrderedQueueInsertingIndex q q.length item o) ++
        item :: q.drop (findOrderedQueueInsertingIndex q q.length item o) := by
  simp only [pushItemToOrderedQueue]
  split_ifs with hl hge
  · have h0 : q = [] := List.length_eq_zero.mp (by omega)
    subst h0
    simp
  · rw [List.take_of_length_le (by omega), List.drop_of_length_le (by omega)]
  · rfl

/-- Ordering value at a position of the insertion result, expressed
through the original queue. -/
theorem ovAt_insert (q : List IElement) (item : IElement) (I j : Nat) (hI : I ≤ q.length) :
    ovAt (q.take I ++ item :: q.drop I) j =
      if j < I then ovAt q j else if j = I then item.ov else ovAt q (j - 1) := by
  have hlt : (q.take I).length = I := by
    simp [List.length_take]
    omega
  unfold ovAt
  split_ifs with h1 h2
  · rw [List.getD_eq_getElem?_getD, List.getD_eq_getElem?_getD,
      List.getElem?_append_left (by omega), List.getElem?_take_of_lt h1]
  · subst h2
    rw [List.getD_eq_getElem?_getD, List.getElem?_append_right (by omega), hlt]
    simp
  · rw [List.getD_eq_getElem?_getD, List.getD_eq_getElem?_getD,
      List.getElem?_append_right (by omega), hlt]
    have hj : j - I = (j - I - 1) + 1 := by omega
    rw [hj, List.getElem?_cons_succ, List.getElem?_drop]
    have : I + (j - I - 1) = j - 1 := by omega
    rw [this]

/-- Length of the insertion result. -/
theorem length_insertAt (q : List IElement) (item : IElement) (I : Nat) (hI : I ≤ q.length) :
    (q.take I ++ item :: q.drop I).length = q.length + 1 := by
  simp [List.length_take, List.length_drop]
  omega

/-- Inserting at an index satisfying the search postcondition preserves
sortedness. -/
theorem insertAt_sorted (q : List IElement) (item : IElement) (o : OrderingMode)
    (hs : SortedByMode o q) (I : Nat) (hpost : InsPost q item o I) :
    SortedByMode o (q.take I ++ item :: q.drop I) := by
  rcases hpost with ⟨hle, hbefore, hafter⟩
  intro i j hij hjlen
  rw [length_insertAt q item I hle] at hjlen
  rw [ovAt_insert q item I i hle, ovAt_insert q item I j hle]
  by_cases hiI : i < I
  · by_cases hjI : j < I
    · simp only [if_pos hiI, if_pos hjI]
      exact hs i j hij (by omega)
    · by_cases hjE : j = I
      · simp only [if_pos hiI, if_neg hjI, if_pos hjE]
        exact hbefore i hiI
      · simp only [if_pos hiI, if_neg hjI, if_neg hjE]
        exact hs i (j - 1) (by omega) (by omega)
  · have hjI : ¬ j < I := by omega
    have hjE : ¬ j = I := by omega
    by_cases hiE : i = I
    · simp only [if_neg hiI, if_pos hiE, if_neg hjI, if_neg hjE]
      have hIlt : I < q.length := by omega
      have hup := hafter hIlt
      rcases Nat.eq_or_lt_of_le (show I ≤ j - 1 by omega) with heq | hlt
      · rw [← heq]
        exact goLeft_asymm o hup
      · exact goLeft_trans_asymm o hup (hs I (j - 1) hlt (by omega))
    · simp only [if_neg hiI, if_neg hiE, if_neg hjI, if_neg hjE]
      exact hs (i - 1) (j - 1) (by omega) (by omega)

/-- Go `Add` preserves sortedness of the slice. -/
theorem add_sorted (Q : OrderedQueue) (item : IElement)
    (hs : SortedByMode Q.ordering Q.queue) :
    SortedByMode Q.ordering (Q.Add item).queue := by
  show SortedByMode Q.ordering (pushItemToOrderedQueue Q.queue Q.queue.length item Q.ordering)
  rw [push_eq_insertAt]
  exact insertAt_sorted Q.queue item Q.ordering hs _ (findInsertingIndex_post Q.queue item Q.ordering hs)

/-- Go `Add` does not change the ordering mode. -/
theorem add_ordering (Q : OrderedQueue) (item : IElement) :
    (Q.Add item).ordering = Q.ordering := rfl

/-- A queue built by folding `Add` over any list of items, starting from a
sorted queue, stays sorted. -/
theorem foldl_add_sorted (items : List IElement) :
    ∀ Q : OrderedQueue, SortedByMode Q.ordering Q.queue →
      SortedByMode Q.ordering ((items.foldl OrderedQueue.Add Q).queue) ∧
      (items.foldl OrderedQueue.Add Q).ordering = Q.ordering := by
  induction items with
  | nil => exact fun Q hs => ⟨hs, rfl⟩
  | cons it its ih =>
    intro Q hs
    have h1 := add_sorted Q it hs
    have h2 := ih (Q.Add it) h1
    exact ⟨by rw [show (Q.Add it).ordering = Q.ordering from rfl] at h2; exact h2.1,
      h2.2⟩

/-- The empty queue is sorted in any mode. -/
theorem sorted_nil (o : OrderingMode) : SortedByMode o [] := by
  intro i j hij hjl
  simp at hjl

/-- Relating the total `ovAt` lookup to the checked list access. -/
theorem ovAt_eq_get (q : List IElement) (j : Nat) (h : j < q.length) :
    ovAt q j = (q.get ⟨j, h⟩).ov := by
  simp [ovAt, List.getD_eq_getElem?_getD, List.getElem?_eq_getElem h]

/-- Positional sortedness in ascending mode gives the pairwise
non-decreasing property. -/
theorem sortedByMode_pairwise_asc (q : List IElement) (hs : SortedByMode OrderingAsc q) :
    q.Pairwise (fun a b => a.ov ≤ b.ov) := by
  rw [List.pairwise_iff_getElem]
  intro i j hi hj hij
  have h := hs i j hij hj
  rw [ovAt_eq_get q i hi, ovAt_eq_get q j hj] at h
  simp only [goLeft, decide_eq_false_iff_not, not_lt, List.get_eq_getElem] at h
  exact h

/-- Positional sortedness in descending mode gives the pairwise
non-increasing property. -/
theorem sortedByMode_pairwise_desc (q : List IElement) (hs : SortedByMode OrderingDesc q) :
    q.Pairwise (fun a b => b.ov ≤ a.ov) := by
  rw [List.pairwise_iff_getElem]
  intro i j hi hj hij
  have h := hs i j hij hj
  rw [ovAt_eq_get q i hi, ovAt_eq_get q j hj] at h
  simp only [goLeft, decide_eq_false_iff_not, not_lt, List.get_eq_getElem] at h
  exact h

/-- Converse bridge: a pairwise not-left list is positionally sorted. -/
theorem pairwise_sortedByMode (o : OrderingMode) (q : List IElement)
    (hp : q.Pairwise (fun a b => goLeft o b.ov a.ov = false)) : SortedByMode o q := by
  rw [List.pairwise_iff_getElem] at hp
  intro i j hij hjl
  have h := hp i j (by omega) hjl hij
  rw [ovAt_eq_get q i (by omega), ovAt_eq_get q j hjl]
  simp only [List.get_eq_getElem]
  exact h

/-- Claim C1: building an ordered queue by any sequence of `Add` calls
leaves `Elements()` non-decreasing in ordering value for the ascending
mode and non-increasing for the descending mode; and each insertion into a
sorted queue places the new element exactly at the computed index, which
lies strictly after every existing element of equal ordering value
(insertion stability). -/
theorem claim_C1_sort_stability :
    (∀ items : List IElement,
      ((items.foldl OrderedQueue.Add NewAscOrderingQueue).Elements).Pairwise
        (fun a b => a.ov ≤ b.ov)) ∧
    (∀ items : List IElement,
      ((items.foldl OrderedQueue.Add NewDescOrderingQueue).Elements).Pairwise
        (fun a b => b.ov ≤ a.ov)) ∧
    (∀ (o : OrderingMode) (q : List IElement) (item : IElement), SortedByMode o q →
      pushItemToOrderedQueue q q.length item o =
        q.take (findOrderedQueueInsertingIndex q q.length item o) ++
          item :: q.drop (findOrderedQueueInsertingIndex q q.length item o) ∧
      (∀ j, j < q.length → ovAt q j = item.ov →
        j < findOrderedQueueInsertingIndex q q.length item o)) := by
  refine ⟨?_, ?_, ?_⟩
  · intro items
    have h := foldl_add_sorted items NewAscOrderingQueue (sorted_nil _)
    have hs : SortedByMode OrderingAsc (items.foldl OrderedQueue.Add NewAscOrderingQueue).queue := h.1
    exact sortedByMode_pairwise_asc _ hs
  · intro items
    have h := foldl_add_sorted items NewDescOrderingQueue (sorted_nil _)
    have hs : SortedByMode OrderingDesc (items.foldl OrderedQueue.Add NewDescOrderingQueue).queue := h.1
    exact sortedByMode_pairwise_desc _ hs
  · intro o q item hs
    refine ⟨push_eq_insertAt q item o, ?_⟩
    intro j hjlen heq
    by_contra hge
    push_neg at hge
    rcases findInsertingIndex_post q item o hs with ⟨hle, hbefore, hafter⟩
    have hIlt : findOrderedQueueInsertingIndex q q.length item o < q.length := by omega
    have hup := hafter hIlt
    rcases Nat.eq_or_lt_of_le hge with hcase | hcase
    · rw [hcase] at hup
      exact goLeft_ne o hup heq.symm
    · have := goLeft_trans_left o hup (hs _ j hcase hjlen)
      exact goLeft_ne o this heq.symm

/-- Witness for claim C1 at concrete inputs: the ascending fold of three
elements, and the stability part instantiated on the sorted queue
`[a(1), c(3)]` with a new element of ordering value 1. -/
theorem claim_C1_sort_stability_witness :
    ((([elemA, elemC, elemB].foldl OrderedQueue.Add NewAscOrderingQueue).Elements).Pairwise
      (fun a b => a.ov ≤ b.ov)) ∧
    (pushItemToOrderedQueue [elemA, elemC] [elemA, elemC].length elemB OrderingAsc =
      [elemA, elemC].take
          (findOrderedQueueInsertingIndex [elemA, elemC] [elemA, elemC].length elemB OrderingAsc) ++
        elemB :: [elemA, elemC].drop
          (findOrderedQueueInsertingIndex [elemA, elemC] [elemA, elemC].length elemB OrderingAsc) ∧
      (∀ j, j < [elemA, elemC].length → ovAt [elemA, elemC] j = elemB.ov →
        j < findOrderedQueueInsertingIndex [elemA, elemC] [elemA, elemC].length elemB OrderingAsc)) :=
  ⟨claim_C1_sort_stability.1 [elemA, elemC, elemB],
    claim_C1_sort_stability.2.2 OrderingAsc [elemA, elemC] elemB
      (pairwise_sortedByMode OrderingAsc [elemA, elemC] (by decide))⟩

/-- Insertion produces a permutation of consing the item. -/
theorem push_perm (q : List IElement) (item : IElement) (o : OrderingMode) :
    (pushItemToOrderedQueue q q.length item o).Perm (item :: q) := by
  rw [push_eq_insertAt]
  have h : (q.take (findOrderedQueueInsertingIndex q q.length item o) ++
        item :: q.drop (findOrderedQueueInsertingIndex q q.length item o)).Perm
      (item :: (q.take (findOrderedQueueInsertingIndex q q.length item o) ++
        q.drop (findOrderedQueueInsertingIndex q q.length item o))) :=
    List.perm_middle
  rw [List.take_append_drop] at h
  exact h

/-- Folding `Add` over a list of items yields a permutation of the items
followed by the initial contents. -/
theorem foldl_add_perm (items : List IElement) :
    ∀ Q : OrderedQueue, ((items.foldl OrderedQueue.Add Q).queue).Perm (items ++ Q.queue) := by
  induction items with
  | nil =>
    intro Q
    simp
  | cons it its ih =>
    intro Q
    have h1 := ih (Q.Add it)
    have h2 : (Q.Add it).queue.Perm (it :: Q.queue) := push_perm Q.queue it Q.ordering
    have h3 : (its ++ (Q.Add it).queue).Perm (its ++ it :: Q.queue) :=
      List.Perm.append_left its h2
    have h4 : (its ++ it :: Q.queue).Perm (it :: (its ++ Q.queue)) := List.perm_middle
    simpa using (h1.trans h3).trans h4

/-- With enough fuel, draining by repeated `Pop` returns exactly the queue
contents in order. -/
theorem drainAll_eq (fuel : Nat) : ∀ Q : OrderedQueue, Q.queue.length ≤ fuel →
    drainAll fuel Q = Q.queue := by
  induction fuel with
  | zero =>
    intro Q h
    have h0 : Q.queue = [] := List.length_eq_zero.mp (by omega)
    simp [drainAll, h0]
  | succ f ih =>
    intro Q h
    cases hq : Q.queue with
    | nil => simp [drainAll, OrderedQueue.Pop, hq]
    | cons x rest =>
      have hpop : Q.Pop = (some x, { Q with queue := rest }) := by
        unfold OrderedQueue.Pop
        rw [hq]
      rw [show drainAll (f + 1) Q = match Q.Pop with
          | (none, _) => []
          | (some y, q2) => y :: drainAll f q2 from rfl, hpop]
      have hr := ih { Q with queue := rest } (by rw [hq] at h; simpa using h)
      show x :: drainAll f { Q with queue := rest } = x :: rest
      rw [hr]

/-- Claim C9: any serialization of N `Add` calls with pairwise distinct
ordering values into one ascending queue, followed by draining via `Pop`,
yields all N elements exactly once (a permutation of the pushed items), in
strictly increasing ordering-value order.  The mutex makes each `Add`
atomic, so an arbitrary concurrent interleaving is exactly a fold over
some ordering of the items, which the universally quantified `items`
covers. -/
theorem claim_C9_concurrent_push (items : List IElement)
    (hd : items.Pairwise (fun a b => a.ov ≠ b.ov)) :
    (drainAll items.length (items.foldl OrderedQueue.Add NewAscOrderingQueue)).Perm items ∧
    (drainAll items.length (items.foldl OrderedQueue.Add NewAscOrderingQueue)).Pairwise
      (fun a b => a.ov < b.ov) := by
  have hperm0 := foldl_add_perm items NewAscOrderingQueue
  rw [show NewAscOrderingQueue.queue = [] from rfl, List.append_nil] at hperm0
  have hlen : (items.foldl OrderedQueue.Add NewAscOrderingQueue).queue.length = items.length :=
    hperm0.length_eq
  have hdrain := drainAll_eq items.length (items.foldl OrderedQueue.Add NewAscOrderingQueue)
    (by omega)
  rw [hdrain]
  refine ⟨hperm0, ?_⟩
  have hsor : SortedByMode OrderingAsc (items.foldl OrderedQueue.Add NewAscOrderingQueue).queue :=
    (foldl_add_sorted items NewAscOrderingQueue (sorted_nil _)).1
  have hle := sortedByMode_pairwise_asc _ hsor
  have hne : (items.foldl OrderedQueue.Add NewAscOrderingQueue).queue.Pairwise
      (fun a b => a.ov ≠ b.ov) :=
    (hperm0.pairwise_iff (fun h => h.symm)).mpr hd
  exact (hle.and hne).imp (fun h => lt_of_le_of_ne h.1 h.2)

/-- Witness for claim C9 at a concrete input: pushing ordering values 3
then 1 and draining gives values 1 then 3, each exactly once. -/
theorem claim_C9_concurrent_push_witness :
    (drainAll [elemC, elemA].length
      ([elemC, elemA].foldl OrderedQueue.Add NewAscOrderingQueue)).Perm [elemC, elemA] ∧
    (drainAll [elemC, elemA].length
      ([elemC, elemA].foldl OrderedQueue.Add NewAscOrderingQueue)).Pairwise
      (fun a b => a.ov < b.ov) :=
  claim_C9_concurrent_push [elemC, elemA] (by decide)

/-- A successful forward scan returns a position inside the scanned range
holding the wanted identity. -/
theorem scanFwdAux_some (q : List IElement) (tid : String) :
    ∀ rem cursor c, scanFwdAux q tid cursor rem = some c →
      cursor ≤ c ∧ c < cursor + rem ∧ (q.getD c dummyElement).id = tid := by
  intro rem
  induction rem with
  | zero =>
    intro cursor c h
    simp [scanFwdAux] at h
  | succ r ih =>
    intro cursor c h
    by_cases hm : (q.getD cursor dummyElement).id = tid
    · rw [show scanFwdAux q tid cursor (r + 1) =
          if (q.getD cursor dummyElement).id = tid then some cursor
          else scanFwdAux q tid (cursor + 1) r from rfl, if_pos hm] at h
      injection h with h2
      subst h2
      exact ⟨Nat.le_refl _, by omega, hm⟩
    · rw [show scanFwdAux q tid cursor (r + 1) =
          if (q.getD cursor dummyElement).id = tid then some cursor
          else scanFwdAux q tid (cursor + 1) r from rfl, if_neg hm] at h
      obtain ⟨h1, h2, h3⟩ := ih (cursor + 1) c h
      exact ⟨by omega, by omega, h3⟩

/-- A failed forward scan leaves no matching identity in its range. -/
theorem scanFwdAux_none (q : List IElement) (tid : String) :
    ∀ rem cursor, scanFwdAux q tid cursor rem = none →
      ∀ j, cursor ≤ j → j < cursor + rem → (q.getD j dummyElement).id ≠ tid := by
  intro rem
  induction rem with
  | zero =>
    intro cursor _ j h1 h2
    omega
  | succ r ih =>
    intro cursor h j h1 h2
    by_cases hm : (q.getD cursor dummyElement).id = tid
    · rw [show scanFwdAux q tid cursor (r + 1) =
          if (q.getD cursor dummyElement).id = tid then some cursor
          else scanFwdAux q tid (cursor + 1) r from rfl, if_pos hm] at h
      exact Option.noConfusion h
    · rw [show scanFwdAux q tid cursor (r + 1) =
          if (q.getD cursor dummyElement).id = tid then some cursor
          else scanFwdAux q tid (cursor + 1) r from rfl, if_neg hm] at h
      rcases Nat.eq_or_lt_of_le h1 with heq | hlt
      · rw [← heq]
        exact hm
      · exact ih (cursor + 1) h j hlt (by omega)

/-- A successful backward scan returns a position inside the scanned range
holding the wanted identity. -/
theorem scanBwdAux_some (q : List IElement) (tid : String) :
    ∀ rem (cursor : Int) c, scanBwdAux q tid cursor rem = some c →
      cursor - rem < c ∧ c ≤ cursor ∧ (q.getD c.toNat dummyElement).id = tid := by
  intro rem
  induction rem with
  | zero =>
    intro cursor c h
    simp [scanBwdAux] at h
  | succ r ih =>
    intro cursor c h
    by_cases hm : (q.getD cursor.toNat dummyElement).id = tid
    · rw [show scanBwdAux q tid cursor (r + 1) =
          if (q.getD cursor.toNat dummyElement).id = tid then some cursor
          else scanBwdAux q tid (cursor - 1) r from rfl, if_pos hm] at h
      injection h with h2
      subst h2
      exact ⟨by omega, by omega, hm⟩
    · rw [show scanBwdAux q tid cursor (r + 1) =
          if (q.getD cursor.toNat dummyElement).id = tid then some cursor
          else scanBwdAux q tid (cursor - 1) r from rfl, if_neg hm] at h
      obtain ⟨h1, h2, h3⟩ := ih (cursor - 1) c h
      exact ⟨by omega, by omega, h3⟩

/-- A failed backward scan leaves no matching identity in its range. -/
theorem scanBwdAux_none (q : List IElement) (tid : String) :
    ∀ rem (cursor : Int), scanBwdAux q tid cursor rem = none →
      ∀ j : Int, cursor - rem < j → j ≤ cursor → (q.getD j.toNat dummyElement).id ≠ tid := by
  intro rem
  induction rem with
  | zero =>
    intro cursor _ j h1 h2
    omega
  | succ r ih =>
    intro cursor h j h1 h2
    by_cases hm : (q.getD cursor.toNat dummyElement).id = tid
    · rw [show scanBwdAux q tid cursor (r + 1) =
          if (q.getD cursor.toNat dummyElement).id = tid then some cursor
          else scanBwdAux q tid (cursor - 1) r from rfl, if_pos hm] at h
      exact Option.noConfusion h
    · rw [show scanBwdAux q tid cursor (r + 1) =
          if (q.getD cursor.toNat dummyElement).id = tid then some cursor
          else scanBwdAux q tid (cursor - 1) r from rfl, if_neg hm] at h
      rcases eq_or_lt_of_le h2 with heq | hlt
      · rw [heq]
        exact hm
      · exact ih (cursor - 1) h j (by omega) (by omega)

/-- A non-negative result of `findElementIndex` lies in the one-each-side
window around the binary-search estimate and holds the wanted identity. -/
theorem findElementIndex_found (Q : OrderedQueue) (item : IElement) (c : Int)
    (h : Q.findElementIndex item = c) (hc : 0 ≤ c) :
    removeWindow Q.queue.length
      (findOrderedQueueInsertingIndex Q.queue Q.queue.length item Q.ordering) c.toNat ∧
    (Q.queue.getD c.toNat dummyElement).id = item.id := by
  have hIle : findOrderedQueueInsertingIndex Q.queue Q.queue.length item Q.ordering ≤
      Q.queue.length := findInsertingIndex_le _ _ _ _
  simp only [OrderedQueue.findElementIndex] at h
  by_cases hl : Q.queue.length ≤ 0
  · rw [if_pos hl] at h
    omega
  · rw [if_neg hl] at h
    split at h
    · next cf heqf =>
      obtain ⟨h1, h2, h3⟩ := scanFwdAux_some Q.queue item.id _ _ _ heqf
      have hcf : (cf : Int) = c := h
      have hcn : c.toNat = cf := by omega
      rw [hcn]
      refine ⟨⟨?_, ?_, ?_⟩, h3⟩
      · by_cases hx : findOrderedQueueInsertingIndex Q.queue Q.queue.length item Q.ordering + 2 >
            Q.queue.length <;> simp [hx] at h2 <;> omega
      · omega
      · by_cases hx : findOrderedQueueInsertingIndex Q.queue Q.queue.length item Q.ordering + 2 >
            Q.queue.length <;> simp [hx] at h2 <;> omega
    · next heqf =>
      split at h
      · next cb heqb =>
        obtain ⟨h1, h2, h3⟩ := scanBwdAux_some Q.queue item.id _ _ _ heqb
        have hcb : cb = c := h
        subst hcb
        have hmn : (if (-1 : Int) >
            (findOrderedQueueInsertingIndex Q.queue Q.queue.length item Q.ordering : Int) - 2
            then (-1 : Int)
            else (findOrderedQueueInsertingIndex Q.queue Q.queue.length item Q.ordering : Int) - 2) ≥
            (findOrderedQueueInsertingIndex Q.queue Q.queue.length item Q.ordering : Int) - 2 := by
          split <;> omega
        refine ⟨⟨?_, ?_, ?_⟩, h3⟩
        · omega
        · omega
        · omega
      · next heqb =>
        omega

/-- When `findElementIndex` misses, no position of the one-each-side
window around the binary-search estimate holds the wanted identity. -/
theorem findElementIndex_notfound (Q : OrderedQueue) (item : IElement)
    (h : Q.findElementIndex item = -1) :
    ∀ j, removeWindow Q.queue.length
        (findOrderedQueueInsertingIndex Q.queue Q.queue.length item Q.ordering) j →
      (Q.queue.getD j dummyElement).id ≠ item.id := by
  have hIle : findOrderedQueueInsertingIndex Q.queue Q.queue.length item Q.ordering ≤
      Q.queue.length := findInsertingIndex_le _ _ _ _
  intro j hw
  obtain ⟨hjl, hjlo, hjhi⟩ := hw
  simp only [OrderedQueue.findElementIndex] at h
  by_cases hl : Q.queue.length ≤ 0
  · omega
  · rw [if_neg hl] at h
    split at h
    · next cf heqf =>
      omega
    · next heqf =>
      split at h
      · next cb heqb =>
        obtain ⟨h1, h2, _⟩ := scanBwdAux_some Q.queue item.id _ _ _ heqb
        have hmn : (if (-1 : Int) >
            (findOrderedQueueInsertingIndex Q.queue Q.queue.length item Q.ordering : Int) - 2
            then (-1 : Int)
            else (findOrderedQueueInsertingIndex Q.queue Q.queue.length item Q.ordering : Int) - 2) ≥
            (-1 : Int) := by
          split <;> omega
        omega
      · next heqb =>
        by_cases hcase : findOrderedQueueInsertingIndex Q.queue Q.queue.length item Q.ordering ≤ j
        · -- covered by the forward scan
          refine scanFwdAux_none Q.queue item.id _ _ heqf j hcase ?_
          by_cases hx : findOrderedQueueInsertingIndex Q.queue Q.queue.length item Q.ordering + 2 >
              Q.queue.length <;> simp [hx] <;> omega
        · -- covered by the backward scan: j is exactly the estimate minus one
          have hj : j + 1 = findOrderedQueueInsertingIndex Q.queue Q.queue.length item Q.ordering := by
            omega
          have hnn := scanBwdAux_none Q.queue item.id _ _ heqb (j : Int) ?_ ?_
          · intro hid
            exact hnn hid
          · have hmn : (if (-1 : Int) >
                (findOrderedQueueInsertingIndex Q.queue Q.queue.length item Q.ordering : Int) - 2
                then (-1 : Int)
                else (findOrderedQueueInsertingIndex Q.queue Q.queue.length item Q.ordering : Int) - 2) =
                (findOrderedQueueInsertingIndex Q.queue Q.queue.length item Q.ordering : Int) - 2 := by
              split <;> omega
            rw [hmn]
            omega
          · omega

/-- The result of `findElementIndex` is `-1` or non-negative. -/
theorem findElementIndex_ge (Q : OrderedQueue) (item : IElement) :
    Q.findElementIndex item = -1 ∨ 0 ≤ Q.findElementIndex item := by
  simp only [OrderedQueue.findElementIndex]
  by_cases hl : Q.queue.length ≤ 0
  · rw [if_pos hl]
    left
    rfl
  · rw [if_neg hl]
    split
    · next cf heqf =>
      right
      omega
    · next heqf =>
      split
      · next cb heqb =>
        right
        obtain ⟨h1, h2, _⟩ := scanBwdAux_some Q.queue item.id _ _ _ heqb
        have hmn : (if (-1 : Int) >
            (findOrderedQueueInsertingIndex Q.queue Q.queue.length item Q.ordering : Int) - 2
            then (-1 : Int)
            else (findOrderedQueueInsertingIndex Q.queue Q.queue.length item Q.ordering : Int) - 2) ≥
            (-1 : Int) := by
          split <;> omega
        omega
      · next heqb =>
        left
        rfl

/-- A hit removes exactly the located position. -/
theorem remove_found (Q : OrderedQueue) (item : IElement)
    (h : 0 ≤ Q.findElementIndex item) :
    Q.Remove item = (true, { Q with queue := (Q.queue.take (Q.findElementIndex item).toNat ++
      Q.queue.drop ((Q.findElementIndex item).toNat + 1)) }) := by
  simp only [OrderedQueue.Remove]
  rw [if_neg (by omega)]

/-- A miss leaves the queue untouched. -/
theorem remove_notfound (Q : OrderedQueue) (item : IElement)
    (h : Q.findElementIndex item = -1) :
    Q.Remove item = (false, Q) := by
  simp only [OrderedQueue.Remove]
  rw [if_pos (by omega)]

/-- Claim C4 (amended): `Remove` compares identities only within a window
of ONE position on each side of the binary-search insertion estimate
(positions estimate-1 through estimate+1, clamped to the queue bounds):
it returns true and splices out a position exactly when some position of
that window holds the probe identity, and returns false with the queue
unchanged otherwise — even when an element with that identity is
physically present elsewhere. -/
theorem claim_C4_remove_window (Q : OrderedQueue) (item : IElement) :
    ((Q.Remove item).1 = true ↔
      ∃ j, removeWindow Q.queue.length
          (findOrderedQueueInsertingIndex Q.queue Q.queue.length item Q.ordering) j ∧
        (Q.queue.getD j dummyElement).id = item.id) ∧
    ((Q.Remove item).1 = false → (Q.Remove item).2 = Q) ∧
    ((Q.Remove item).1 = true →
      ∃ j, removeWindow Q.queue.length
          (findOrderedQueueInsertingIndex Q.queue Q.queue.length item Q.ordering) j ∧
        (Q.queue.getD j dummyElement).id = item.id ∧
        (Q.Remove item).2 = { Q with queue := Q.queue.take j ++ Q.queue.drop (j + 1) }) := by
  rcases findElementIndex_ge Q item with hm | hm
  · have hrw := remove_notfound Q item hm
    rw [hrw]
    refine ⟨?_, ?_, ?_⟩
    · constructor
      · intro hh
        exact Bool.noConfusion hh
      · rintro ⟨j, hw, hid⟩
        exact absurd hid (findElementIndex_notfound Q item hm j hw)
    · intro _
      rfl
    · intro hh
      exact Bool.noConfusion hh
  · have hrw := remove_found Q item hm
    rw [hrw]
    obtain ⟨hw, hid⟩ := findElementIndex_found Q item _ rfl hm
    refine ⟨?_, ?_, ?_⟩
    · exact ⟨fun _ => ⟨(Q.findElementIndex item).toNat, hw, hid⟩, fun _ => rfl⟩
    · intro hh
      exact Bool.noConfusion hh
    · intro _
      exact ⟨(Q.findElementIndex item).toNat, hw, hid, rfl⟩

/-- Witness for the amended claim C4 at a concrete input: removing `a`
from `[a(1), b(1)]` (a miss: the estimate is 2 and `a` sits at position 0,
outside the scanned window). -/
theorem claim_C4_remove_window_witness :
    (((OrderedQueue.mk [elemA, elemB] OrderingAsc).Remove elemA).1 = true ↔
      ∃ j, removeWindow (OrderedQueue.mk [elemA, elemB] OrderingAsc).queue.length
          (findOrderedQueueInsertingIndex (OrderedQueue.mk [elemA, elemB] OrderingAsc).queue
            (OrderedQueue.mk [elemA, elemB] OrderingAsc).queue.length elemA
            (OrderedQueue.mk [elemA, elemB] OrderingAsc).ordering) j ∧
        ((OrderedQueue.mk [elemA, elemB] OrderingAsc).queue.getD j dummyElement).id = elemA.id) ∧
    (((OrderedQueue.mk [elemA, elemB] OrderingAsc).Remove elemA).1 = false →
      ((OrderedQueue.mk [elemA, elemB] OrderingAsc).Remove elemA).2 =
        OrderedQueue.mk [elemA, elemB] OrderingAsc) ∧
    (((OrderedQueue.mk [elemA, elemB] OrderingAsc).Remove elemA).1 = true →
      ∃ j, removeWindow (OrderedQueue.mk [elemA, elemB] OrderingAsc).queue.length
          (findOrderedQueueInsertingIndex (OrderedQueue.mk [elemA, elemB] OrderingAsc).queue
            (OrderedQueue.mk [elemA, elemB] OrderingAsc).queue.length elemA
            (OrderedQueue.mk [elemA, elemB] OrderingAsc).ordering) j ∧
        ((OrderedQueue.mk [elemA, elemB] OrderingAsc).queue.getD j dummyElement).id = elemA.id ∧
        ((OrderedQueue.mk [elemA, elemB] OrderingAsc).Remove elemA).2 =
          OrderedQueue.mk
            ((OrderedQueue.mk [elemA, elemB] OrderingAsc).queue.take j ++
              (OrderedQueue.mk [elemA, elemB] OrderingAsc).queue.drop (j + 1))
            (OrderedQueue.mk [elemA, elemB] OrderingAsc).ordering) :=
  claim_C4_remove_window (OrderedQueue.mk [elemA, elemB] OrderingAsc) elemA

/-- Claim C4 (counterexample): in the queue `[a(1), b(1)]` the estimate
for `a` is 2, the identity of `a` matches at position `0 = estimate - 2`,
inside the window of two positions each side claimed by the spec — yet
`Remove` returns false, leaves the queue unchanged, and `GetElement`
confirms the element is still physically present. -/
theorem claim_C4_counterexample :
    findOrderedQueueInsertingIndex [elemA, elemB] 2 elemA OrderingAsc = 2 ∧
    ([elemA, elemB].getD 0 dummyElement).id = elemA.id ∧
    (0 : Int) ≥ (2 : Int) - 2 ∧
    ((OrderedQueue.mk [elemA, elemB] OrderingAsc).Remove elemA).1 = false ∧
    ((OrderedQueue.mk [elemA, elemB] OrderingAsc).Remove elemA).2 =
      OrderedQueue.mk [elemA, elemB] OrderingAsc ∧
    (OrderedQueue.mk [elemA, elemB] OrderingAsc).GetElement elemA.id = some elemA := by
  refine ⟨by decide, by decide, by decide, by decide, by decide, by decide⟩
